import Mathlib

/-!
Shallow embedding of `spider/data_op.py` (repository YANG-ERA/Artist) and
verification of the frozen claims about it.

Conventions of the embedding:
* numpy arrays become Lean lists; a 2-D array is a `List (List _)` of rows
  (for the PCA standardization we take the column-wise view, since every
  operation there is per-column along axis 0);
* machine floats are modelled as exact rationals `ℚ`;
* `np.random.shuffle` is modelled by an oracle function `shuf` passed as a
  parameter; theorems that need it assume only that it permutes its input
  or preserves the length;
* a comparison `sqrt d < t` on real numbers (with `d ≥ 0`) is embedded as
  the equivalent rational condition `0 < t ∧ d < t * t`; the bridge lemma
  `sqrt_lt_iff_sq_lt` below proves the equivalence against `Real.sqrt`;
* `np.argsort` is modelled as a stable sort (`List.insertionSort`), which
  matches numpy's behaviour on the small inputs used in counterexamples;
  sorting by `sqrt d` and sorting by `d` agree since `sqrt` is monotone.
-/

namespace DataOp

/-! ### tag2int (data_op.py lines 15-18)

`tags = list(set(label))` enumerates the distinct labels; Python's set
iteration order is unspecified, we model it as first-occurrence order
(`List.dedup`).  The claimed properties are independent of that order.
`int_label = [tags.index(x) for x in label]` is `List.indexOf`. -/

def tag2int (label : List ℕ) : List ℕ × List ℕ :=
  let tags := label.dedup
  (label.map (fun x => tags.indexOf x), tags)

/-! ### PCA standardization (data_op.py lines 48-63)

`pca_reduce` first centers `X` column-wise, computes the column standard
deviations of the centered matrix, replaces zero deviations by the
pseudo-count `1e-9` (`std[std==0] += 1e-9`), and divides.  We embed the
matrix as a list of columns and the real square root as an oracle
`sqrtq : ℚ → ℚ`; theorems assume of it only what `Real.sqrt` satisfies. -/

def colMean (c : List ℚ) : ℚ := c.sum / c.length

def centerCol (c : List ℚ) : List ℚ := c.map (fun v => v - colMean c)

/-- `np.std` of a column: mean squared deviation, before the square root. -/
def colVar (c : List ℚ) : ℚ := (c.map (fun v => (v - colMean c) ^ 2)).sum / c.length

/-- The divisor used for a column: `std`, with `std[std==0] += 1e-9`. -/
def stdDivisor (sqrtq : ℚ → ℚ) (c : List ℚ) : ℚ :=
  let sd := sqrtq (colVar (centerCol c))
  if sd = 0 then sd + 1 / 1000000000 else sd

/-- One column of `X = (X - mean) / std` as computed by `pca_reduce`. -/
def standardizeCol (sqrtq : ℚ → ℚ) (c : List ℚ) : List ℚ :=
  (centerCol c).map (fun v => v / stdDivisor sqrtq c)

/-- The whole standardized matrix (column view) handed to `PCA`. -/
def pca_standardize (sqrtq : ℚ → ℚ) (cols : List (List ℚ)) : List (List ℚ) :=
  cols.map (standardizeCol sqrtq)

/-! ### Spatial adjacency by radius (data_op.py lines 77-92)

`get_adjacency` builds a boolean `sample_n × sample_n` matrix: row `i` is
`euclidean_distance < threshold_distance` over all points, with entry `i`
forced to `False` when `exclude_self`.  The distance of row `j` to point `i`
is `sqrt(Σ_d (c[j][d] - c[i][d])²)`; we store the squared distance and embed
the float comparison `sqrt d < t` as `0 < t ∧ d < t*t` (see
`sqrt_lt_iff_sq_lt`). -/

/-- Squared Euclidean distance between two coordinate rows. -/
def sqdist (p q : List ℚ) : ℚ := (List.zipWith (fun a b => (a - b) ^ 2) p q).sum

/-- Boolean matrix entry accessor; out-of-range entries read as `false`. -/
def bmatEntry (A : List (List Bool)) (i j : ℕ) : Bool := (A.getD i []).getD j false

def get_adjacency (coordinate : List (List ℚ)) (threshold_distance : ℚ)
    (exclude_self : Bool) : List (List Bool) :=
  let sample_n := coordinate.length
  (List.range sample_n).map (fun i =>
    (List.range sample_n).map (fun j =>
      if exclude_self = true ∧ j = i then false
      else decide (0 < threshold_distance ∧
        sqdist (coordinate.getD j []) (coordinate.getD i [])
          < threshold_distance * threshold_distance)))

/-! ### k-nearest-neighbour adjacency (data_op.py lines 94-109)

`get_adjacency_knearest` sorts, for each point `i`, all indices by the
distance `sqrt(diff[:,0]² + diff[:,1]²)` (only the first two coordinate
components are used, so points are embedded as pairs), takes the first
`nearest_k` indices (`nearest_k + 1` when `exclude_self`, which also forces
entry `(i,i)` to `False` afterwards).  `np.argsort` is modelled as a stable
insertion sort; sorting by the squared distance gives the same order as
sorting by the distance, since `sqrt` is monotone. -/

def dist2 (p q : ℚ × ℚ) : ℚ := (q.1 - p.1) ^ 2 + (q.2 - p.2) ^ 2

/-- Squared distance of point `a` to point `i` of the coordinate list. -/
def knKey (c : List (ℚ × ℚ)) (i a : ℕ) : ℚ := dist2 (c.getD i (0, 0)) (c.getD a (0, 0))

/-- `np.argsort(euclidean_distance)` for row `i`, as a stable index sort. -/
def argsortDist (c : List (ℚ × ℚ)) (i : ℕ) : List ℕ :=
  List.insertionSort (fun a b => knKey c i a ≤ knKey c i b) (List.range c.length)

def get_adjacency_knearest (c : List (ℚ × ℚ)) (nearest_k : ℕ) (exclude_self : Bool) :
    List (List Bool) :=
  let sample_n := c.length
  let k := if exclude_self then nearest_k + 1 else nearest_k
  (List.range sample_n).map (fun i =>
    let sel := (argsortDist c i).take k
    (List.range sample_n).map (fun j =>
      if exclude_self = true ∧ j = i then false else decide (j ∈ sel)))

/-! ### Neighbourhood composition counts (data_op.py lines 125-151)

`get_neighbourhood_count` takes an `N×N` 0-1 adjacency matrix and a label
argument that is either an `N×M` one-hot matrix (`one_hot_label = True`) or a
length-`N` integer-coded vector (then a one-hot matrix is built from it, with
`label_n = len(np.unique(label))` columns, `one_hot[arange(N), label] = 1`;
numpy raises for label values `≥ label_n`, the theorems assume in-range
labels).  With `exclude_self` the diagonal of the *caller's* adjacency matrix
is cleared in place (`adjacency[np.eye(n).astype(bool)] = 0`); the embedding
returns the final state of both arguments next to the result so that this
frame effect is observable. -/

/-- Natural-number matrix entry accessor; out-of-range entries read as 0. -/
def matEntry (A : List (List ℕ)) (i j : ℕ) : ℕ := (A.getD i []).getD j 0

/-- One row of the in-place masked assignment clearing the diagonal:
`maskRow i j0 row` zeroes the entry of `row` at absolute column `i`, the row
starting at absolute column `j0`. -/
def maskRow (i : ℕ) : ℕ → List ℕ → List ℕ
  | _, [] => []
  | j, v :: vs => (if i = j then 0 else v) :: maskRow i (j + 1) vs

def maskRows : ℕ → List (List ℕ) → List (List ℕ)
  | _, [] => []
  | i, r :: rs => maskRow i 0 r :: maskRows (i + 1) rs

/-- `adjacency[np.eye(sample_n).astype(bool)] = 0`. -/
def zeroDiag (A : List (List ℕ)) : List (List ℕ) := maskRows 0 A

/-- `one_hot = np.zeros((sample_n, label_n)); one_hot[np.arange(sample_n), label] = 1`. -/
def buildOneHot (sample_n label_n : ℕ) (label : List ℕ) : List (List ℕ) :=
  (List.range sample_n).map (fun i =>
    (List.range label_n).map (fun m => if label.getD i 0 = m then 1 else 0))

/-- `adjacency.dot(one_hot)`. -/
def matMul (A B : List (List ℕ)) : List (List ℕ) :=
  A.map (fun row =>
    (List.range (B.headD []).length).map (fun m =>
      ((List.range row.length).map (fun j => row.getD j 0 * matEntry B j m)).sum))

def get_neighbourhood_count (adjacency : List (List ℕ))
    (label : List (List ℕ) ⊕ List ℕ) (exclude_self : Bool) :
    List (List ℕ) × (List (List ℕ) ⊕ List ℕ) × List (List ℕ) :=
  let sample_n := adjacency.length
  let one_hot := match label with
    | Sum.inl oh => oh
    | Sum.inr ints => buildOneHot sample_n ints.dedup.length ints
  let adj := if exclude_self then zeroDiag adjacency else adjacency
  (adj, label, matMul adj one_hot)

/-! ### DataLoader (data_op.py lines 153-239)

numpy arrays become lists of rows; the tuple `xs` becomes a list of such
arrays.  `sample_n = xs[0].shape[0]` (the constructor asserts all arrays
agree; theorems carry that as a hypothesis).  `np.random.shuffle(_perm)` is
modelled by the oracle `shuf` passed to `next_batch`; fancy indexing
`x[index]` becomes `fancyIndex`, a Python slice `l[a:b]` becomes `pySlice`.
`next_batch` returns the new state, the batch (`batch_y = None` is an
`Option`), and whether the eval-mode warning was printed. -/

structure DataLoader (α β : Type) where
  xs : List (List α)
  y : List β
  epochs_completed : ℕ
  index_in_epoch : ℕ
  sample_n : ℕ
  perm : List ℕ
  for_eval : Bool

def DataLoader.init {α β : Type} (xs : List (List α)) (y : List β) (for_eval : Bool) :
    DataLoader α β :=
  { xs := xs
    y := y
    epochs_completed := 0
    index_in_epoch := 0
    sample_n := (xs.headD []).length
    perm := List.range (xs.headD []).length
    for_eval := for_eval }

/-- numpy fancy indexing `x[index]` for an index array. -/
def fancyIndex {α : Type} [Inhabited α] (x : List α) (index : List ℕ) : List α :=
  index.map (fun j => x.getD j default)

/-- Python slice `l[a:b]` (no step, nonnegative bounds). -/
def pySlice {α : Type} (l : List α) (a b : ℕ) : List α := (l.take b).drop a

def DataLoader.read_into_memory {α β : Type} [Inhabited α] [Inhabited β]
    (s : DataLoader α β) (index : List ℕ) : List (List α) × Option (List β) :=
  (s.xs.map (fun x => fancyIndex x index),
   if s.for_eval then none else some (fancyIndex s.y index))

/-- `_multi_concatenate` at the two-tuple instance used by `next_batch`:
`zip(*(a, b))` then `np.concatenate` along axis 0. -/
def multi_concatenate {α : Type} (a b : List (List α)) : List (List α) :=
  List.zipWith (fun u v => u ++ v) a b

structure BatchResult (α β : Type) where
  state : DataLoader α β
  batch_x : List (List α)
  batch_y : Option (List β)
  warned : Bool

def DataLoader.next_batch {α β : Type} [Inhabited α] [Inhabited β]
    (shuf : List ℕ → List ℕ) (s : DataLoader α β) (batch_size : ℕ) (shuffle : Bool) :
    BatchResult α β :=
  let warned := decide (1 ≤ s.epochs_completed) && s.for_eval
  let start := s.index_in_epoch
  let perm0 :=
    if s.epochs_completed = 0 ∧ start = 0 ∧ shuffle = true then shuf s.perm else s.perm
  if s.sample_n ≤ start + batch_size then
    let rest_sample_n := s.sample_n - start
    let rest := DataLoader.read_into_memory { s with perm := perm0 }
      (pySlice perm0 start s.sample_n)
    if s.for_eval then
      let st := { s with perm := perm0, epochs_completed := s.epochs_completed + 1, index_in_epoch := 0 }
      { state := st, batch_x := rest.1, batch_y := rest.2, warned := warned }
    else
      let perm1 := if shuffle then shuf perm0 else perm0
      let newIdx := batch_size - rest_sample_n
      let npart := DataLoader.read_into_memory { s with perm := perm1 }
        (pySlice perm1 0 newIdx)
      let batch : List (List α) × Option (List β) :=
        if (rest.1.headD []).length = 0 then (npart.1, npart.2)
        else if (npart.1.headD []).length = 0 then (rest.1, rest.2)
        else (multi_concatenate rest.1 npart.1,
              match rest.2, npart.2 with
              | some u, some v => some (u ++ v)
              | _, _ => none)
      let st := { s with perm := perm1, epochs_completed := s.epochs_completed + 1, index_in_epoch := newIdx }
      { state := st, batch_x := batch.1, batch_y := batch.2, warned := warned }
  else
    let res := DataLoader.read_into_memory { s with perm := perm0 }
      (pySlice perm0 start (start + batch_size))
    let st := { s with perm := perm0, index_in_epoch := start + batch_size }
    { state := st, batch_x := res.1, batch_y := res.2, warned := warned }

end DataOp

namespace DataOp

theorem sum_map_sub_const (c : List ℚ) (m : ℚ) :
    (c.map (fun v => v - m)).sum = c.sum - c.length * m := by
  induction c with
  | nil => simp
  | cons a l ih =>
    simp only [List.map_cons, List.sum_cons, List.length_cons, ih]
    push_cast
    ring

theorem colMean_centerCol (c : List ℚ) : colMean (centerCol c) = 0 := by
  unfold colMean centerCol
  rcases eq_or_ne c [] with rfl | hne
  · simp
  · have hlen : (c.map (fun v => v - colMean c)).length = c.length := by simp
    rw [hlen, sum_map_sub_const]
    have hn : (c.length : ℚ) ≠ 0 := by
      exact_mod_cast Nat.cast_ne_zero.mpr (by simpa using hne)
    unfold colMean
    field_simp

theorem colVar_nonneg (c : List ℚ) : 0 ≤ colVar c := by
  unfold colVar
  apply div_nonneg
  · apply List.sum_nonneg
    intro x hx
    simp only [List.mem_map] at hx
    obtain ⟨v, _, rfl⟩ := hx
    positivity
  · positivity

theorem sum_map_div (c : List ℚ) (d : ℚ) : (c.map (fun v => v / d)).sum = c.sum / d := by
  induction c with
  | nil => simp
  | cons a l ih => simp [ih, add_div]

theorem sum_centerCol (c : List ℚ) : (centerCol c).sum = 0 := by
  rcases eq_or_ne c [] with rfl | hne
  · simp [centerCol]
  · have h0 := colMean_centerCol c
    have hlen : ((centerCol c).length : ℚ) ≠ 0 := by
      simp only [centerCol, List.length_map]
      exact_mod_cast Nat.cast_ne_zero.mpr (by simpa using hne)
    unfold colMean at h0
    exact (div_eq_zero_iff.mp h0).resolve_right hlen

/-- Claim C8: for every non-empty label sequence, `tag2int` returns a pair
`(int_label, tags)` such that `tags` enumerates the distinct label values
without repetition, every entry of `int_label` lies in `[0, tags.length)`,
and the encoding round-trips: `tags[int_label[i]] = label[i]` for all `i`. -/
theorem C8_tag2int_roundtrip (label : List ℕ) (hne : label ≠ []) :
    (tag2int label).2.Nodup ∧
    (∀ x, x ∈ (tag2int label).2 ↔ x ∈ label) ∧
    (tag2int label).1.length = label.length ∧
    ∀ i, i < label.length →
      (tag2int label).1.getD i 0 < (tag2int label).2.length ∧
      (tag2int label).2.getD ((tag2int label).1.getD i 0) 0 = label.getD i 0 := by
  refine ⟨List.nodup_dedup label, fun x => List.mem_dedup, by simp [tag2int], ?_⟩
  intro i hi
  have hvm : label.getD i 0 ∈ label := by
    rw [List.getD_eq_getElem?_getD, List.getElem?_eq_getElem hi]
    exact List.getElem_mem hi
  have hidx : (tag2int label).1.getD i 0 = label.dedup.indexOf (label.getD i 0) := by
    simp only [tag2int]
    rw [List.getD_eq_getElem?_getD, List.getElem?_map, List.getElem?_eq_getElem hi]
    simp [List.getD_eq_getElem?_getD, List.getElem?_eq_getElem hi]
  have hvd : label.getD i 0 ∈ label.dedup := List.mem_dedup.mpr hvm
  have hlt : label.dedup.indexOf (label.getD i 0) < label.dedup.length :=
    List.indexOf_lt_length.mpr hvd
  constructor
  · rw [hidx]
    simpa [tag2int] using hlt
  · rw [hidx]
    simp only [tag2int]
    rw [List.getD_eq_getElem?_getD, List.getElem?_eq_getElem hlt]
    simp [List.getElem_indexOf hlt]

theorem C8_witness :
    ([3, 1, 3] : List ℕ) ≠ [] ∧
    ((tag2int [3, 1, 3]).2.Nodup ∧
     (∀ x, x ∈ (tag2int [3, 1, 3]).2 ↔ x ∈ ([3, 1, 3] : List ℕ)) ∧
     (tag2int [3, 1, 3]).1.length = ([3, 1, 3] : List ℕ).length ∧
     ∀ i, i < ([3, 1, 3] : List ℕ).length →
       (tag2int [3, 1, 3]).1.getD i 0 < (tag2int [3, 1, 3]).2.length ∧
       (tag2int [3, 1, 3]).2.getD ((tag2int [3, 1, 3]).1.getD i 0) 0
         = ([3, 1, 3] : List ℕ).getD i 0) :=
  ⟨by decide, C8_tag2int_roundtrip [3, 1, 3] (by decide)⟩

/-- Claim C9: the column-wise standardization of `pca_reduce` never divides by
zero: every zero standard deviation is replaced by the pseudo-count `1e-9`, so
the division `X/std` is defined on all inputs, and the standardized matrix has
column means of zero.  `sqrtq` is the square-root oracle; the hypothesis is
exactly what `Real.sqrt` satisfies on nonnegative inputs. -/
theorem C9_pca_standardize_safe (sqrtq : ℚ → ℚ)
    (hsq : ∀ q, 0 ≤ q → (sqrtq q = 0 ↔ q = 0))
    (cols : List (List ℚ)) (c : List ℚ) (hc : c ∈ cols) :
    stdDivisor sqrtq c ≠ 0 ∧
    (colVar (centerCol c) = 0 → stdDivisor sqrtq c = 1 / 1000000000) ∧
    colMean (standardizeCol sqrtq c) = 0 ∧
    standardizeCol sqrtq c ∈ pca_standardize sqrtq cols := by
  refine ⟨?_, ?_, ?_, List.mem_map_of_mem _ hc⟩
  · by_cases h : sqrtq (colVar (centerCol c)) = 0
    · simp only [stdDivisor, if_pos h, h]
      norm_num
    · simp only [stdDivisor, if_neg h]
      exact h
  · intro hvar
    have h0 : sqrtq (colVar (centerCol c)) = 0 :=
      (hsq _ (colVar_nonneg _)).mpr hvar
    simp [stdDivisor, if_pos h0, h0, zero_add]
  · unfold standardizeCol colMean
    rw [sum_map_div, sum_centerCol]
    simp

theorem C9_witness :
    (∀ q : ℚ, 0 ≤ q → ((if q = 0 then (0 : ℚ) else 1) = 0 ↔ q = 0)) ∧
    ([1, 1] : List ℚ) ∈ [([1, 1] : List ℚ)] ∧
    (stdDivisor (fun q => if q = 0 then 0 else 1) [1, 1] ≠ 0 ∧
     (colVar (centerCol [1, 1]) = 0 →
       stdDivisor (fun q => if q = 0 then 0 else 1) [1, 1] = 1 / 1000000000) ∧
     colMean (standardizeCol (fun q => if q = 0 then 0 else 1) [1, 1]) = 0 ∧
     standardizeCol (fun q => if q = 0 then 0 else 1) [1, 1]
       ∈ pca_standardize (fun q => if q = 0 then 0 else 1) [[1, 1]]) :=
  ⟨fun q _ => by by_cases h : q = 0 <;> simp [h],
   by simp,
   C9_pca_standardize_safe _ (fun q _ => by by_cases h : q = 0 <;> simp [h]) _ _ (by simp)⟩

theorem sqdist_nonneg : ∀ p q : List ℚ, 0 ≤ sqdist p q
  | [], _ => by simp [sqdist]
  | _ :: _, [] => by simp [sqdist]
  | a :: p, b :: q => by
    have h1 := sqdist_nonneg p q
    have h2 : 0 ≤ (a - b) ^ 2 := sq_nonneg _
    simp only [sqdist, List.zipWith_cons_cons, List.sum_cons] at h1 ⊢
    linarith

/-- Exact-real bridge for the embedded float comparison: for `0 ≤ d`,
`Real.sqrt d < t` holds iff `0 < t ∧ d < t*t` (all over `ℚ`). -/
theorem sqrt_lt_iff_sq_lt (d t : ℚ) :
    Real.sqrt (d : ℝ) < (t : ℝ) ↔ (0 < t ∧ d < t * t) := by
  constructor
  · intro h
    have ht : (0 : ℝ) < t := lt_of_le_of_lt (Real.sqrt_nonneg _) h
    have hd2 := (Real.sqrt_lt' ht).mp h
    refine ⟨by exact_mod_cast ht, ?_⟩
    have : (d : ℝ) < (t : ℝ) * (t : ℝ) := by nlinarith
    exact_mod_cast this
  · rintro ⟨ht, hlt⟩
    have ht' : (0 : ℝ) < t := by exact_mod_cast ht
    apply (Real.sqrt_lt' ht').mpr
    have : (d : ℝ) < (t : ℝ) * (t : ℝ) := by exact_mod_cast hlt
    nlinarith

theorem bmatEntry_get_adjacency (c : List (List ℚ)) (t : ℚ) (es : Bool) (i j : ℕ)
    (hi : i < c.length) (hj : j < c.length) :
    bmatEntry (get_adjacency c t es) i j =
      (if es = true ∧ j = i then false
       else decide (0 < t ∧ sqdist (c.getD j []) (c.getD i []) < t * t)) := by
  simp [bmatEntry, get_adjacency, List.getElem?_range hi, List.getElem?_range hj]

/-- Claim C3: `get_adjacency` returns a `sample_n × sample_n` boolean matrix
whose entry `(i,j)` is `True` iff the Euclidean distance between point `i` and
point `j` is strictly below `threshold_distance` (and, when
`exclude_self = True`, `j ≠ i`); with `exclude_self = True` every diagonal
entry is `False`. -/
theorem C3_get_adjacency_radius (c : List (List ℚ)) (t : ℚ) (es : Bool) (i j : ℕ)
    (hi : i < c.length) (hj : j < c.length) :
    (get_adjacency c t es).length = c.length ∧
    (∀ row ∈ get_adjacency c t es, row.length = c.length) ∧
    (bmatEntry (get_adjacency c t es) i j = true ↔
      (Real.sqrt (sqdist (c.getD j []) (c.getD i [])) < (t : ℝ) ∧ ¬(es = true ∧ j = i))) ∧
    (es = true → bmatEntry (get_adjacency c t es) i i = false) := by
  refine ⟨by simp [get_adjacency], ?_, ?_, ?_⟩
  · intro row hrow
    simp only [get_adjacency, List.mem_map] at hrow
    obtain ⟨a, _, rfl⟩ := hrow
    simp
  · rw [bmatEntry_get_adjacency c t es i j hi hj]
    by_cases hdiag : es = true ∧ j = i
    · simp [hdiag]
    · rw [if_neg hdiag]
      simp only [decide_eq_true_iff, hdiag, not_false_iff, and_true]
      rw [sqrt_lt_iff_sq_lt]
  · intro hes
    rw [bmatEntry_get_adjacency c t es i i hi hi]
    simp [hes]

theorem length_filter_mem_range (sel : List ℕ) (n : ℕ) (hnd : sel.Nodup)
    (hsub : ∀ j ∈ sel, j < n) :
    ((List.range n).filter (fun j => decide (j ∈ sel))).length = sel.length := by
  have h1 : ((List.range n).filter (fun j => decide (j ∈ sel))).Nodup :=
    List.Nodup.filter _ (List.nodup_range n)
  have hmem : ∀ x, x ∈ (List.range n).filter (fun j => decide (j ∈ sel)) ↔ x ∈ sel := by
    intro x
    simp only [List.mem_filter, List.mem_range, decide_eq_true_iff]
    exact ⟨fun h => h.2, fun h => ⟨hsub x h, h⟩⟩
  have hsp1 := List.subperm_of_subset h1 (fun x hx => (hmem x).mp hx)
  have hsp2 := List.subperm_of_subset hnd (fun x hx => (hmem x).mpr hx)
  exact le_antisymm hsp1.length_le hsp2.length_le

theorem pairwise_take_drop {α : Type} {R : α → α → Prop} {l : List α}
    (h : l.Pairwise R) (k : ℕ) :
    ∀ a ∈ l.take k, ∀ b ∈ l.drop k, R a b := by
  rw [← List.take_append_drop k l] at h
  exact (List.pairwise_append.mp h).2.2

theorem knKey_self (c : List (ℚ × ℚ)) (i : ℕ) : knKey c i i = 0 := by
  simp [knKey, dist2]

theorem knKey_nonneg (c : List (ℚ × ℚ)) (i a : ℕ) : 0 ≤ knKey c i a := by
  unfold knKey dist2
  positivity

/-- Structure of the argsort for row `i` under pairwise-distinct distances:
it starts with `i` itself (distance 0) and continues with the other indices
in strictly increasing distance order. -/
theorem argsortDist_spec (c : List (ℚ × ℚ)) (i : ℕ) (hi : i < c.length)
    (hd : ∀ a, a < c.length → ∀ b, b < c.length → a ≠ b → knKey c i a ≠ knKey c i b) :
    ∃ tl, argsortDist c i = i :: tl ∧ tl.Nodup ∧ i ∉ tl ∧
      tl.length = c.length - 1 ∧ (∀ a, a ∈ tl ↔ a < c.length ∧ a ≠ i) ∧
      (i :: tl).Pairwise (fun a b => knKey c i a < knKey c i b) := by
  have hperm : List.Perm (argsortDist c i) (List.range c.length) :=
    List.perm_insertionSort _ _
  have hlen : (argsortDist c i).length = c.length := by
    simpa using hperm.length_eq
  have hnodup : (argsortDist c i).Nodup := hperm.nodup_iff.mpr (List.nodup_range _)
  have hmem : ∀ a, a ∈ argsortDist c i ↔ a < c.length := by
    intro a
    rw [hperm.mem_iff, List.mem_range]
  have hsorted : (argsortDist c i).Pairwise (fun a b => knKey c i a ≤ knKey c i b) := by
    haveI : IsTotal ℕ (fun a b => knKey c i a ≤ knKey c i b) := ⟨fun a b => le_total _ _⟩
    haveI : IsTrans ℕ (fun a b => knKey c i a ≤ knKey c i b) :=
      ⟨fun _ _ _ hab hbc => le_trans hab hbc⟩
    exact List.sorted_insertionSort _ _
  have hstrict : (argsortDist c i).Pairwise (fun a b => knKey c i a < knKey c i b) := by
    refine (hsorted.and hnodup).imp_of_mem ?_
    intro a b ha hb hab
    exact lt_of_le_of_ne hab.1
      (hd a ((hmem a).mp ha) b ((hmem b).mp hb) hab.2)
  cases hsort_eq : argsortDist c i with
  | nil =>
    rw [hsort_eq] at hlen
    simp at hlen
    omega
  | cons x tl =>
    rw [hsort_eq] at hnodup hlen hstrict
    have hx : x = i := by
      by_contra hxne
      have himem : i ∈ x :: tl := by
        rw [← hsort_eq]
        exact (hmem i).mpr hi
      have hitl : i ∈ tl := by
        rcases List.mem_cons.mp himem with h | h
        · exact absurd h.symm hxne
        · exact h
      have hxi : knKey c i x < knKey c i i := (List.pairwise_cons.mp hstrict).1 i hitl
      have hpos := knKey_nonneg c i x
      rw [knKey_self] at hxi
      linarith
    rw [hx] at hsort_eq hnodup hlen hstrict ⊢
    refine ⟨tl, rfl, (List.nodup_cons.mp hnodup).2, (List.nodup_cons.mp hnodup).1,
      by simp at hlen; omega, ?_, hstrict⟩
    intro a
    constructor
    · intro ha
      have hmem_a : a ∈ argsortDist c i := by
        rw [hsort_eq]
        exact List.mem_cons_of_mem _ ha
      refine ⟨(hmem a).mp hmem_a, ?_⟩
      intro haeq
      exact (List.nodup_cons.mp hnodup).1 (haeq ▸ ha)
    · rintro ⟨han, hane⟩
      have hmem_a : a ∈ argsortDist c i := (hmem a).mpr han
      rw [hsort_eq] at hmem_a
      rcases List.mem_cons.mp hmem_a with h | h
      · exact absurd h hane
      · exact h

theorem bmatEntry_knearest (c : List (ℚ × ℚ)) (k : ℕ) (es : Bool) (i j : ℕ)
    (hi : i < c.length) (hj : j < c.length) :
    bmatEntry (get_adjacency_knearest c k es) i j =
      (if es = true ∧ j = i then false
       else decide (j ∈ (argsortDist c i).take (if es then k + 1 else k))) := by
  simp [bmatEntry, get_adjacency_knearest, List.getElem?_range hi, List.getElem?_range hj]

theorem C3_witness :
    0 < ([[0, 0], [3, 4]] : List (List ℚ)).length ∧
    1 < ([[0, 0], [3, 4]] : List (List ℚ)).length ∧
    ((get_adjacency [[0, 0], [3, 4]] 6 true).length = ([[0, 0], [3, 4]] : List (List ℚ)).length ∧
     (∀ row ∈ get_adjacency [[0, 0], [3, 4]] 6 true,
        row.length = ([[0, 0], [3, 4]] : List (List ℚ)).length) ∧
     (bmatEntry (get_adjacency [[0, 0], [3, 4]] 6 true) 0 1 = true ↔
       (Real.sqrt (sqdist (([[0, 0], [3, 4]] : List (List ℚ)).getD 1 [])
          (([[0, 0], [3, 4]] : List (List ℚ)).getD 0 [])) < ((6 : ℚ) : ℝ) ∧
        ¬(true = true ∧ 1 = 0))) ∧
     (true = true → bmatEntry (get_adjacency [[0, 0], [3, 4]] 6 true) 0 0 = false)) :=
  ⟨by decide, by decide,
   C3_get_adjacency_radius [[0, 0], [3, 4]] 6 true 0 1 (by decide) (by decide)⟩

/-- Claim C2 (amended): for every coordinate list in which, for each point
`i`, the distances from `i` to all points are pairwise distinct (hence no
other point coincides with `i` and no two points are equidistant from `i`),
and every `nearest_k` with `1 ≤ nearest_k < sample_n`,
`get_adjacency_knearest` returns a `sample_n × sample_n` boolean matrix in
which row `i` has exactly `nearest_k` entries set to `True`, namely those of
the `nearest_k` points with smallest Euclidean distance to point `i` (every
selected point is strictly closer to `i` than every non-selected one); when
`exclude_self = True` the entry `(i,i)` is `False` and point `i` itself is
not counted among the `nearest_k` neighbours.  Without the distinctness
hypothesis the statement is false, see `C2_counterexample`. -/
theorem C2_knearest_amended (c : List (ℚ × ℚ)) (nearest_k : ℕ) (es : Bool)
    (hk1 : 1 ≤ nearest_k) (hk2 : nearest_k < c.length)
    (hd : ∀ i, i < c.length → ∀ a, a < c.length → ∀ b, b < c.length →
       a ≠ b → knKey c i a ≠ knKey c i b) :
    (get_adjacency_knearest c nearest_k es).length = c.length ∧
    (∀ row ∈ get_adjacency_knearest c nearest_k es, row.length = c.length) ∧
    ∀ i, i < c.length →
      ((List.range c.length).filter
        (fun j => bmatEntry (get_adjacency_knearest c nearest_k es) i j)).length = nearest_k ∧
      (∀ j, j < c.length → ∀ l, l < c.length →
        bmatEntry (get_adjacency_knearest c nearest_k es) i j = true →
        bmatEntry (get_adjacency_knearest c nearest_k es) i l = false →
        (es = true → l ≠ i) → knKey c i j < knKey c i l) ∧
      (es = true → bmatEntry (get_adjacency_knearest c nearest_k es) i i = false ∧
        ∀ j, bmatEntry (get_adjacency_knearest c nearest_k es) i j = true → j ≠ i) := by
  refine ⟨by simp [get_adjacency_knearest], ?_, ?_⟩
  · intro row hrow
    simp only [get_adjacency_knearest, List.mem_map] at hrow
    obtain ⟨a, _, rfl⟩ := hrow
    simp
  · intro i hi
    obtain ⟨tl, heq, hnd, hnm, hlen, hmemtl, hpw⟩ := argsortDist_spec c i hi (hd i hi)
    have hnodup : (argsortDist c i).Nodup := by
      rw [heq]
      exact List.nodup_cons.mpr ⟨hnm, hnd⟩
    cases es with
    | false =>
      have hEntry : ∀ j, j < c.length →
          bmatEntry (get_adjacency_knearest c nearest_k false) i j
            = decide (j ∈ (argsortDist c i).take nearest_k) := by
        intro j hj
        rw [bmatEntry_knearest c nearest_k false i j hi hj]
        simp
      have hself : ((argsortDist c i).take nearest_k).Nodup :=
        List.Nodup.sublist (List.take_sublist _ _) hnodup
      have hsub : ∀ j ∈ (argsortDist c i).take nearest_k, j < c.length := by
        intro j hj
        have hjs : j ∈ argsortDist c i := List.mem_of_mem_take hj
        rw [heq] at hjs
        rcases List.mem_cons.mp hjs with h | h
        · exact h ▸ hi
        · exact ((hmemtl j).mp h).1
      have hlensel : ((argsortDist c i).take nearest_k).length = nearest_k := by
        rw [List.length_take, heq]
        simp only [List.length_cons, hlen]
        omega
      refine ⟨?_, ?_, ?_⟩
      · rw [List.filter_congr (fun j hj => by rw [hEntry j (List.mem_range.mp hj)])]
        rw [length_filter_mem_range _ c.length hself hsub, hlensel]
      · intro j hj l hl htj htl _
        rw [hEntry j hj] at htj
        rw [hEntry l hl] at htl
        have hjmem : j ∈ (argsortDist c i).take nearest_k := by simpa using htj
        have hlnot : l ∉ (argsortDist c i).take nearest_k := by simpa using htl
        have hlall : l ∈ argsortDist c i := by
          rw [heq]
          rcases eq_or_ne l i with rfl | hlne
          · exact List.mem_cons_self _ _
          · exact List.mem_cons_of_mem _ ((hmemtl l).mpr ⟨hl, hlne⟩)
        have hldrop : l ∈ (argsortDist c i).drop nearest_k := by
          rw [← List.take_append_drop nearest_k (argsortDist c i)] at hlall
          rcases List.mem_append.mp hlall with h | h
          · exact absurd h hlnot
          · exact h
        exact pairwise_take_drop (heq ▸ hpw) nearest_k j hjmem l hldrop
      · intro hes
        simp at hes
    | true =>
      have hitk : i ∉ tl.take nearest_k := fun hmem => hnm (List.mem_of_mem_take hmem)
      have hEntry : ∀ j, j < c.length →
          bmatEntry (get_adjacency_knearest c nearest_k true) i j
            = decide (j ∈ tl.take nearest_k) := by
        intro j hj
        rw [bmatEntry_knearest c nearest_k true i j hi hj]
        by_cases hji : j = i
        · subst hji
          simp [hitk]
        · simp only [hji, and_false, if_false, if_neg, heq, List.take_succ_cons]
          simp [List.mem_cons, hji]
      have hself : (tl.take nearest_k).Nodup :=
        List.Nodup.sublist (List.take_sublist _ _) hnd
      have hsub : ∀ j ∈ tl.take nearest_k, j < c.length := by
        intro j hj
        exact ((hmemtl j).mp (List.mem_of_mem_take hj)).1
      have hlensel : (tl.take nearest_k).length = nearest_k := by
        rw [List.length_take, hlen]
        omega
      refine ⟨?_, ?_, ?_⟩
      · rw [List.filter_congr (fun j hj => by rw [hEntry j (List.mem_range.mp hj)])]
        rw [length_filter_mem_range _ c.length hself hsub, hlensel]
      · intro j hj l hl htj htl hlne
        rw [hEntry j hj] at htj
        rw [hEntry l hl] at htl
        have hjmem : j ∈ tl.take nearest_k := by simpa using htj
        have hlnot : l ∉ tl.take nearest_k := by simpa using htl
        have hltl : l ∈ tl := (hmemtl l).mpr ⟨hl, hlne rfl⟩
        have hldrop : l ∈ tl.drop nearest_k := by
          rw [← List.take_append_drop nearest_k tl] at hltl
          rcases List.mem_append.mp hltl with h | h
          · exact absurd h hlnot
          · exact h
        exact pairwise_take_drop (List.pairwise_cons.mp hpw).2 nearest_k j hjmem l hldrop
      · intro _
        constructor
        · rw [hEntry i hi]
          simp [hitk]
        · intro j htj
          intro hji
          subst hji
          rw [hEntry j hi] at htj
          simp [hitk] at htj

theorem C2_witness :
    1 ≤ 1 ∧ 1 < ([((0 : ℚ), (0 : ℚ)), (2, 0), (5, 0)] : List (ℚ × ℚ)).length ∧
    ((get_adjacency_knearest [((0 : ℚ), (0 : ℚ)), (2, 0), (5, 0)] 1 true).length
        = ([((0 : ℚ), (0 : ℚ)), (2, 0), (5, 0)] : List (ℚ × ℚ)).length ∧
     (∀ row ∈ get_adjacency_knearest [((0 : ℚ), (0 : ℚ)), (2, 0), (5, 0)] 1 true,
        row.length = ([((0 : ℚ), (0 : ℚ)), (2, 0), (5, 0)] : List (ℚ × ℚ)).length) ∧
     ∀ i, i < ([((0 : ℚ), (0 : ℚ)), (2, 0), (5, 0)] : List (ℚ × ℚ)).length →
       ((List.range ([((0 : ℚ), (0 : ℚ)), (2, 0), (5, 0)] : List (ℚ × ℚ)).length).filter
         (fun j => bmatEntry
           (get_adjacency_knearest [((0 : ℚ), (0 : ℚ)), (2, 0), (5, 0)] 1 true) i j)).length
         = 1 ∧
       (∀ j, j < ([((0 : ℚ), (0 : ℚ)), (2, 0), (5, 0)] : List (ℚ × ℚ)).length →
         ∀ l, l < ([((0 : ℚ), (0 : ℚ)), (2, 0), (5, 0)] : List (ℚ × ℚ)).length →
         bmatEntry (get_adjacency_knearest [((0 : ℚ), (0 : ℚ)), (2, 0), (5, 0)] 1 true) i j
           = true →
         bmatEntry (get_adjacency_knearest [((0 : ℚ), (0 : ℚ)), (2, 0), (5, 0)] 1 true) i l
           = false →
         (true = true → l ≠ i) →
         knKey [((0 : ℚ), (0 : ℚ)), (2, 0), (5, 0)] i j
           < knKey [((0 : ℚ), (0 : ℚ)), (2, 0), (5, 0)] i l) ∧
       (true = true →
         bmatEntry (get_adjacency_knearest [((0 : ℚ), (0 : ℚ)), (2, 0), (5, 0)] 1 true) i i
           = false ∧
         ∀ j, bmatEntry (get_adjacency_knearest [((0 : ℚ), (0 : ℚ)), (2, 0), (5, 0)] 1 true) i j
           = true → j ≠ i)) :=
  ⟨le_refl 1, by decide,
   C2_knearest_amended [((0 : ℚ), (0 : ℚ)), (2, 0), (5, 0)] 1 true (le_refl 1) (by decide)
     (by
       intro i hi a ha b hb hab
       simp only [List.length_cons, List.length_nil] at hi ha hb
       interval_cases i <;> interval_cases a <;> interval_cases b <;>
         first
           | exact absurd rfl hab
           | norm_num [knKey, dist2])⟩

/-- Claim C2, as stated, is false on the code: with the three coincident
points `(0,0), (0,0), (0,0)`, `nearest_k = 1` (which satisfies
`1 ≤ nearest_k < sample_n`) and `exclude_self = True`, row 2 of the returned
matrix has two entries set to `True`, not `nearest_k = 1`. -/
theorem C2_counterexample :
    1 ≤ 1 ∧ 1 < ([((0 : ℚ), (0 : ℚ)), (0, 0), (0, 0)] : List (ℚ × ℚ)).length ∧
    ¬ (((List.range ([((0 : ℚ), (0 : ℚ)), (0, 0), (0, 0)] : List (ℚ × ℚ)).length).filter
        (fun j => bmatEntry
          (get_adjacency_knearest [((0 : ℚ), (0 : ℚ)), (0, 0), (0, 0)] 1 true) 2 j)).length
      = 1) := by
  norm_num [get_adjacency_knearest, argsortDist, List.insertionSort, List.orderedInsert,
    knKey, dist2, List.range_succ, bmatEntry, List.filter]

theorem getD_of_lt {α : Type} (A : List α) (i : ℕ) (d : α) (h : i < A.length) :
    A.getD i d = A[i] := by
  rw [List.getD_eq_getElem?_getD, List.getElem?_eq_getElem h]
  rfl

theorem maskRow_length (i : ℕ) : ∀ (j0 : ℕ) (row : List ℕ),
    (maskRow i j0 row).length = row.length := by
  intro j0 row
  induction row generalizing j0 with
  | nil => rfl
  | cons v vs ih => simp [maskRow, ih]

theorem maskRow_getD (i : ℕ) (row : List ℕ) (j0 j : ℕ) :
    (maskRow i j0 row).getD j 0 = if i = j0 + j then 0 else row.getD j 0 := by
  induction row generalizing j0 j with
  | nil => simp [maskRow]
  | cons v vs ih =>
    cases j with
    | zero => simp [maskRow]
    | succ jj =>
      simp only [maskRow, List.getD_cons_succ, ih (j0 + 1) jj]
      have harith : j0 + 1 + jj = j0 + (jj + 1) := by omega
      rw [harith]

theorem maskRows_getD (A : List (List ℕ)) (i0 i : ℕ) :
    (maskRows i0 A).getD i [] = maskRow (i0 + i) 0 (A.getD i []) := by
  induction A generalizing i0 i with
  | nil => cases i <;> simp [maskRows, maskRow]
  | cons r rs ih =>
    cases i with
    | zero => simp [maskRows]
    | succ ii =>
      simp only [maskRows, List.getD_cons_succ, ih (i0 + 1) ii]
      have harith : i0 + 1 + ii = i0 + (ii + 1) := by omega
      rw [harith]

theorem maskRows_length : ∀ (i0 : ℕ) (A : List (List ℕ)),
    (maskRows i0 A).length = A.length := by
  intro i0 A
  induction A generalizing i0 with
  | nil => rfl
  | cons r rs ih => simp [maskRows, ih]

theorem matEntry_zeroDiag (A : List (List ℕ)) (i j : ℕ) :
    matEntry (zeroDiag A) i j = if i = j then 0 else matEntry A i j := by
  unfold matEntry zeroDiag
  rw [maskRows_getD, maskRow_getD]
  simp

theorem zeroDiag_length (A : List (List ℕ)) : (zeroDiag A).length = A.length :=
  maskRows_length 0 A

theorem zeroDiag_row_length (A : List (List ℕ)) (i : ℕ) :
    ((zeroDiag A).getD i []).length = (A.getD i []).length := by
  unfold zeroDiag
  rw [maskRows_getD, maskRow_length]

theorem sum_indicator_eq_length_filter (l : List ℕ) (p : ℕ → Bool) :
    (l.map (fun j => if p j then 1 else 0)).sum = (l.filter p).length := by
  induction l with
  | nil => rfl
  | cons a t ih => by_cases h : p a <;> simp [h, ih] <;> omega

theorem matEntry_matMul (A B : List (List ℕ)) (i m : ℕ)
    (hi : i < A.length) (hm : m < (B.headD []).length) :
    matEntry (matMul A B) i m
      = ((List.range (A.getD i []).length).map
          (fun j => (A.getD i []).getD j 0 * matEntry B j m)).sum := by
  unfold matEntry matMul
  rw [getD_of_lt _ i [] (by simpa using hi)]
  simp only [List.getElem_map]
  rw [getD_of_lt _ m 0 (by simpa using hm)]
  simp only [List.getElem_map, List.getElem_range]
  rw [getD_of_lt A i [] hi]
  simp only [matEntry]

theorem matEntry_buildOneHot (n M : ℕ) (l : List ℕ) (j m : ℕ)
    (hj : j < n) (hm : m < M) :
    matEntry (buildOneHot n M l) j m = if l.getD j 0 = m then 1 else 0 := by
  unfold matEntry buildOneHot
  rw [getD_of_lt _ j [] (by simpa using hj)]
  simp only [List.getElem_map, List.getElem_range]
  rw [getD_of_lt _ m 0 (by simpa using hm)]
  simp only [List.getElem_map, List.getElem_range]

theorem buildOneHot_head_length (n M : ℕ) (l : List ℕ) (hn : 0 < n) :
    ((buildOneHot n M l).headD []).length = M := by
  cases n with
  | zero => omega
  | succ n => simp [buildOneHot, List.range_succ_eq_map]

/-- Core counting lemma: a 0-1 matrix `A` times a one-hot matrix `B`
(column `m` of row `j` is the indicator of `lab j = m`) counts, in entry
`(i,m)`, the indices `j < n` with `A i j = 1` and `lab j = m`. -/
theorem matMul_count (A B : List (List ℕ)) (n M : ℕ) (lab : ℕ → ℕ)
    (i₀ m : ℕ) (hA : A.length = n) (hrow : (A.getD i₀ []).length = n)
    (hi : i₀ < n) (hm : m < M)
    (hBlen : (B.headD []).length = M)
    (hB : ∀ j, j < n → matEntry B j m = if lab j = m then 1 else 0)
    (h01 : ∀ j, j < n → matEntry A i₀ j ≤ 1) :
    matEntry (matMul A B) i₀ m
      = ((List.range n).filter
          (fun j => decide (matEntry A i₀ j = 1 ∧ lab j = m))).length := by
  rw [matEntry_matMul A B i₀ m (hA ▸ hi) (hBlen ▸ hm), hrow]
  rw [List.map_congr_left (g := fun j =>
      if (decide (matEntry A i₀ j = 1 ∧ lab j = m) : Bool) then 1 else 0)]
  · exact sum_indicator_eq_length_filter _ _
  · intro j hj
    rw [List.mem_range] at hj
    have hBj := hB j hj
    have h01j := h01 j hj
    have hentry : (A.getD i₀ []).getD j 0 = matEntry A i₀ j := rfl
    rw [hentry, hBj]
    by_cases hl : lab j = m
    · simp only [hl, if_pos rfl, mul_one]
      interval_cases h : matEntry A i₀ j <;> simp
    · simp [hl]

theorem matMul_length (A B : List (List ℕ)) : (matMul A B).length = A.length := by
  simp [matMul]

theorem matMul_row_length (A B : List (List ℕ)) :
    ∀ row ∈ matMul A B, row.length = (B.headD []).length := by
  intro row hrow
  simp only [matMul, List.mem_map] at hrow
  obtain ⟨a, _, rfl⟩ := hrow
  simp

/-- The count matrix entry, for either value of `exclude_self`. -/
theorem count_with_adj (adjacency : List (List ℕ)) (es : Bool) (B : List (List ℕ))
    (n M : ℕ) (lab : ℕ → ℕ) (i m : ℕ)
    (hA : adjacency.length = n)
    (hrows : ∀ a, a < n → (adjacency.getD a []).length = n)
    (h01 : ∀ a j, a < n → j < n → matEntry adjacency a j ≤ 1)
    (hi : i < n) (hm : m < M) (hBlen : (B.headD []).length = M)
    (hB : ∀ j, j < n → matEntry B j m = if lab j = m then 1 else 0) :
    matEntry (matMul (if es = true then zeroDiag adjacency else adjacency) B) i m
      = ((List.range n).filter (fun j =>
          decide (matEntry adjacency i j = 1 ∧ lab j = m ∧ (es = true → j ≠ i)))).length := by
  cases es with
  | false =>
    simp only [Bool.false_eq_true, if_false]
    rw [matMul_count adjacency B n M lab i m hA (hrows i hi) hi hm hBlen hB
      (fun j hj => h01 i j hi hj)]
    apply congrArg
    apply List.filter_congr
    intro j _
    simp
  | true =>
    rw [if_pos rfl]
    rw [matMul_count (zeroDiag adjacency) B n M lab i m
      (by rw [zeroDiag_length]; exact hA)
      (by rw [zeroDiag_row_length]; exact hrows i hi) hi hm hBlen hB
      (fun j hj => by
        rw [matEntry_zeroDiag]
        split
        · exact Nat.zero_le 1
        · exact h01 i j hi hj)]
    apply congrArg
    apply List.filter_congr
    intro j _
    by_cases hij : i = j
    · simp [matEntry_zeroDiag, hij]
    · simp [matEntry_zeroDiag, hij, Ne.symm hij]

/-- Claim C6: for every `N×N` 0-1 adjacency matrix and every length-`N` label
vector (one-hot `N×M` when `one_hot_label = True`, integer-encoded otherwise),
`get_neighbourhood_count` returns the `N×M` matrix whose entry `(i,m)` is the
number of samples `j` adjacent to `i` whose label is `m`; when
`exclude_self = True` the sample `i` itself contributes nothing to row `i`
even if adjacency `(i,i)` is set. -/
theorem C6_neighbourhood_count (adjacency : List (List ℕ)) (es : Bool) (n : ℕ)
    (hA : adjacency.length = n)
    (hrows : ∀ a, a < n → (adjacency.getD a []).length = n)
    (h01 : ∀ a j, a < n → j < n → matEntry adjacency a j ≤ 1) :
    (∀ (oh : List (List ℕ)) (M : ℕ) (lab : ℕ → ℕ),
      (oh.headD []).length = M →
      (∀ j m, j < n → m < M → matEntry oh j m = if lab j = m then 1 else 0) →
      (get_neighbourhood_count adjacency (Sum.inl oh) es).2.2.length = n ∧
      (∀ row ∈ (get_neighbourhood_count adjacency (Sum.inl oh) es).2.2, row.length = M) ∧
      ∀ i m, i < n → m < M →
        matEntry (get_neighbourhood_count adjacency (Sum.inl oh) es).2.2 i m
          = ((List.range n).filter (fun j =>
              decide (matEntry adjacency i j = 1 ∧ lab j = m ∧ (es = true → j ≠ i)))).length) ∧
    (∀ ints : List ℕ,
      0 < n →
      (∀ j, j < n → ints.getD j 0 < ints.dedup.length) →
      (get_neighbourhood_count adjacency (Sum.inr ints) es).2.2.length = n ∧
      (∀ row ∈ (get_neighbourhood_count adjacency (Sum.inr ints) es).2.2,
        row.length = ints.dedup.length) ∧
      ∀ i m, i < n → m < ints.dedup.length →
        matEntry (get_neighbourhood_count adjacency (Sum.inr ints) es).2.2 i m
          = ((List.range n).filter (fun j =>
              decide (matEntry adjacency i j = 1 ∧ ints.getD j 0 = m
                ∧ (es = true → j ≠ i)))).length) := by
  have hadjlen : (if es = true then zeroDiag adjacency else adjacency).length = n := by
    cases es <;> simp [zeroDiag_length, hA]
  constructor
  · intro oh M lab hBlen hoh
    have hfact : (get_neighbourhood_count adjacency (Sum.inl oh) es).2.2
        = matMul (if es = true then zeroDiag adjacency else adjacency) oh := by
      simp [get_neighbourhood_count]
    refine ⟨by rw [hfact, matMul_length, hadjlen], ?_, ?_⟩
    · intro row hrow
      rw [hfact] at hrow
      rw [matMul_row_length _ oh row hrow, hBlen]
    · intro i m hi hm
      rw [hfact]
      exact count_with_adj adjacency es oh n M lab i m hA hrows h01 hi hm hBlen
        (fun j hj => hoh j m hj hm)
  · intro ints hn hrange
    have hfact : (get_neighbourhood_count adjacency (Sum.inr ints) es).2.2
        = matMul (if es = true then zeroDiag adjacency else adjacency)
            (buildOneHot n ints.dedup.length ints) := by
      simp [get_neighbourhood_count, hA]
    have hBlen := buildOneHot_head_length n ints.dedup.length ints hn
    refine ⟨by rw [hfact, matMul_length, hadjlen], ?_, ?_⟩
    · intro row hrow
      rw [hfact] at hrow
      rw [matMul_row_length _ _ row hrow, hBlen]
    · intro i m hi hm
      rw [hfact]
      exact count_with_adj adjacency es (buildOneHot n ints.dedup.length ints) n
        ints.dedup.length (fun j => ints.getD j 0) i m hA hrows h01 hi hm hBlen
        (fun j hj => matEntry_buildOneHot n ints.dedup.length ints j m hj hm)

theorem C6_witness :
    ([[1, 1], [0, 1]] : List (List ℕ)).length = 2 ∧
    (∀ a, a < 2 → (([[1, 1], [0, 1]] : List (List ℕ)).getD a []).length = 2) ∧
    (∀ a j, a < 2 → j < 2 → matEntry [[1, 1], [0, 1]] a j ≤ 1) ∧
    ((∀ (oh : List (List ℕ)) (M : ℕ) (lab : ℕ → ℕ),
      (oh.headD []).length = M →
      (∀ j m, j < 2 → m < M → matEntry oh j m = if lab j = m then 1 else 0) →
      (get_neighbourhood_count [[1, 1], [0, 1]] (Sum.inl oh) true).2.2.length = 2 ∧
      (∀ row ∈ (get_neighbourhood_count [[1, 1], [0, 1]] (Sum.inl oh) true).2.2,
        row.length = M) ∧
      ∀ i m, i < 2 → m < M →
        matEntry (get_neighbourhood_count [[1, 1], [0, 1]] (Sum.inl oh) true).2.2 i m
          = ((List.range 2).filter (fun j =>
              decide (matEntry [[1, 1], [0, 1]] i j = 1 ∧ lab j = m
                ∧ (true = true → j ≠ i)))).length) ∧
     (∀ ints : List ℕ,
      0 < 2 →
      (∀ j, j < 2 → ints.getD j 0 < ints.dedup.length) →
      (get_neighbourhood_count [[1, 1], [0, 1]] (Sum.inr ints) true).2.2.length = 2 ∧
      (∀ row ∈ (get_neighbourhood_count [[1, 1], [0, 1]] (Sum.inr ints) true).2.2,
        row.length = ints.dedup.length) ∧
      ∀ i m, i < 2 → m < ints.dedup.length →
        matEntry (get_neighbourhood_count [[1, 1], [0, 1]] (Sum.inr ints) true).2.2 i m
          = ((List.range 2).filter (fun j =>
              decide (matEntry [[1, 1], [0, 1]] i j = 1 ∧ ints.getD j 0 = m
                ∧ (true = true → j ≠ i)))).length)) :=
  ⟨by decide, by decide,
   by
     intro a j ha hj
     interval_cases a <;> interval_cases j <;> decide,
   C6_neighbourhood_count [[1, 1], [0, 1]] true 2 (by decide) (by decide)
     (by
       intro a j ha hj
       interval_cases a <;> interval_cases j <;> decide)⟩

/-- Claim C10: with `exclude_self = True`, `get_neighbourhood_count` mutates
the caller's adjacency matrix in place, clearing its diagonal; all other
adjacency entries, the matrix shape and the label argument are unchanged
(and with `exclude_self = False` the adjacency is untouched). -/
theorem C10_adjacency_mutation (adjacency : List (List ℕ))
    (label : List (List ℕ) ⊕ List ℕ) (i j : ℕ) (hij : i ≠ j) :
    (get_neighbourhood_count adjacency label true).2.1 = label ∧
    (get_neighbourhood_count adjacency label true).1.length = adjacency.length ∧
    ((get_neighbourhood_count adjacency label true).1.getD i []).length
      = (adjacency.getD i []).length ∧
    matEntry (get_neighbourhood_count adjacency label true).1 i j
      = matEntry adjacency i j ∧
    matEntry (get_neighbourhood_count adjacency label true).1 i i = 0 ∧
    (get_neighbourhood_count adjacency label false).1 = adjacency := by
  have h1 : (get_neighbourhood_count adjacency label true).1 = zeroDiag adjacency := by
    simp [get_neighbourhood_count]
  refine ⟨by simp [get_neighbourhood_count], ?_, ?_, ?_, ?_, by simp [get_neighbourhood_count]⟩
  · rw [h1, zeroDiag_length]
  · rw [h1, zeroDiag_row_length]
  · rw [h1, matEntry_zeroDiag, if_neg hij]
  · rw [h1, matEntry_zeroDiag, if_pos rfl]

theorem C10_witness :
    (0 : ℕ) ≠ 1 ∧
    ((get_neighbourhood_count [[1, 1], [0, 1]] (Sum.inr [0, 1]) true).2.1
        = Sum.inr [0, 1] ∧
     (get_neighbourhood_count [[1, 1], [0, 1]] (Sum.inr [0, 1]) true).1.length
        = ([[1, 1], [0, 1]] : List (List ℕ)).length ∧
     ((get_neighbourhood_count [[1, 1], [0, 1]] (Sum.inr [0, 1]) true).1.getD 0 []).length
        = (([[1, 1], [0, 1]] : List (List ℕ)).getD 0 []).length ∧
     matEntry (get_neighbourhood_count [[1, 1], [0, 1]] (Sum.inr [0, 1]) true).1 0 1
        = matEntry [[1, 1], [0, 1]] 0 1 ∧
     matEntry (get_neighbourhood_count [[1, 1], [0, 1]] (Sum.inr [0, 1]) true).1 0 0 = 0 ∧
     (get_neighbourhood_count [[1, 1], [0, 1]] (Sum.inr [0, 1]) false).1 = [[1, 1], [0, 1]]) :=
  ⟨by decide, C10_adjacency_mutation [[1, 1], [0, 1]] (Sum.inr [0, 1]) 0 1 (by decide)⟩

theorem fancyIndex_length {α : Type} [Inhabited α] (x : List α) (idx : List ℕ) :
    (fancyIndex x idx).length = idx.length := by
  simp [fancyIndex]

theorem pySlice_length {α : Type} (l : List α) (a b : ℕ) :
    (pySlice l a b).length = min b l.length - a := by
  simp [pySlice]

/-- Claim C5: for `for_eval = False` and `1 ≤ batch_size ≤ sample_n`, the
invariant `0 ≤ _index_in_epoch < sample_n` holds after `__init__` (with a
nonempty dataset) and is preserved by `next_batch`; `_index_in_epoch` equals
the number of samples of the current epoch already served, in the sense that
`epochs_completed * sample_n + _index_in_epoch` grows by exactly
`batch_size` on every call. -/
theorem C5_index_invariant :
    (∀ (xs : List (List ℕ)) (y : List ℕ) (fe : Bool), 0 < (xs.headD []).length →
      (DataLoader.init xs y fe).index_in_epoch = 0 ∧
      (DataLoader.init xs y fe).index_in_epoch < (DataLoader.init xs y fe).sample_n) ∧
    (∀ (shuf : List ℕ → List ℕ) (s : DataLoader ℕ ℕ) (batch_size : ℕ) (shuffle : Bool),
      s.for_eval = false → 1 ≤ batch_size → batch_size ≤ s.sample_n →
      s.index_in_epoch < s.sample_n →
      (DataLoader.next_batch shuf s batch_size shuffle).state.index_in_epoch
        < (DataLoader.next_batch shuf s batch_size shuffle).state.sample_n ∧
      (DataLoader.next_batch shuf s batch_size shuffle).state.sample_n = s.sample_n ∧
      (DataLoader.next_batch shuf s batch_size shuffle).state.epochs_completed * s.sample_n
          + (DataLoader.next_batch shuf s batch_size shuffle).state.index_in_epoch
        = s.epochs_completed * s.sample_n + s.index_in_epoch + batch_size) := by
  constructor
  · intro xs y fe h
    exact ⟨rfl, by simpa [DataLoader.init] using h⟩
  · intro shuf s batch_size shuffle hev hb1 hb2 hidx
    by_cases hcross : s.sample_n ≤ s.index_in_epoch + batch_size
    · simp only [DataLoader.next_batch, hev, if_pos hcross, Bool.false_eq_true, if_false]
      refine ⟨by omega, trivial, ?_⟩
      rw [Nat.succ_mul]
      omega
    · simp only [DataLoader.next_batch, hev, if_neg hcross, Bool.false_eq_true, if_false]
      refine ⟨by omega, trivial, by omega⟩

theorem C5_witness :
    ((DataLoader.init [[5, 6, 7]] [1, 2, 3] false).index_in_epoch = 0 ∧
     (DataLoader.init [[5, 6, 7]] [1, 2, 3] false).index_in_epoch
       < (DataLoader.init [[5, 6, 7]] [1, 2, 3] false : DataLoader ℕ ℕ).sample_n) ∧
    ((DataLoader.next_batch id (DataLoader.init [[5, 6, 7]] [1, 2, 3] false) 2
        false).state.index_in_epoch
       < (DataLoader.next_batch id (DataLoader.init [[5, 6, 7]] [1, 2, 3] false) 2
           false).state.sample_n ∧
     (DataLoader.next_batch id (DataLoader.init [[5, 6, 7]] [1, 2, 3] false) 2
        false).state.sample_n
       = (DataLoader.init [[5, 6, 7]] [1, 2, 3] false : DataLoader ℕ ℕ).sample_n ∧
     (DataLoader.next_batch id (DataLoader.init [[5, 6, 7]] [1, 2, 3] false) 2
          false).state.epochs_completed
         * (DataLoader.init [[5, 6, 7]] [1, 2, 3] false : DataLoader ℕ ℕ).sample_n
       + (DataLoader.next_batch id (DataLoader.init [[5, 6, 7]] [1, 2, 3] false) 2
           false).state.index_in_epoch
       = (DataLoader.init [[5, 6, 7]] [1, 2, 3] false : DataLoader ℕ ℕ).epochs_completed
           * (DataLoader.init [[5, 6, 7]] [1, 2, 3] false : DataLoader ℕ ℕ).sample_n
         + (DataLoader.init [[5, 6, 7]] [1, 2, 3] false : DataLoader ℕ ℕ).index_in_epoch
         + 2) :=
  ⟨C5_index_invariant.1 [[5, 6, 7]] [1, 2, 3] false (by decide),
   C5_index_invariant.2 id (DataLoader.init [[5, 6, 7]] [1, 2, 3] false) 2 false rfl
     (by decide) (by decide) (by decide)⟩

theorem zipWith_append_map {α γ : Type} (l : List γ) (f g : γ → List α) :
    List.zipWith (fun u v => u ++ v) (l.map f) (l.map g) = l.map (fun x => f x ++ g x) := by
  induction l with
  | nil => rfl
  | cons a t ih => simp [ih]

/-- Claim C1: with `for_eval = False`, arrays of common first dimension
`sample_n` and `1 ≤ batch_size ≤ sample_n`, every `next_batch` call returns a
batch whose arrays all have first dimension exactly `batch_size`; an
epoch-crossing call concatenates the rest of the current epoch with the head
of the next one, the degenerate empty-part cases included. -/
theorem C1_batch_first_dim {α β : Type} [Inhabited α] [Inhabited β]
    (shuf : List ℕ → List ℕ) (hshuf : ∀ l, (shuf l).length = l.length)
    (s : DataLoader α β) (hev : s.for_eval = false)
    (hperm : s.perm.length = s.sample_n) (hidx : s.index_in_epoch < s.sample_n)
    (batch_size : ℕ) (hb1 : 1 ≤ batch_size) (hb2 : batch_size ≤ s.sample_n) (shuffle : Bool) :
    ∀ b ∈ (DataLoader.next_batch shuf s batch_size shuffle).batch_x,
      b.length = batch_size := by
  have hp0len : (if s.epochs_completed = 0 ∧ s.index_in_epoch = 0 ∧ shuffle = true
      then shuf s.perm else s.perm).length = s.sample_n := by
    split
    · rw [hshuf]
      exact hperm
    · exact hperm
  have hp1len : (if shuffle = true
      then shuf (if s.epochs_completed = 0 ∧ s.index_in_epoch = 0 ∧ shuffle = true
        then shuf s.perm else s.perm)
      else (if s.epochs_completed = 0 ∧ s.index_in_epoch = 0 ∧ shuffle = true
        then shuf s.perm else s.perm)).length = s.sample_n := by
    split
    · rw [hshuf]
      exact hp0len
    · exact hp0len
  intro b hb
  by_cases hcross : s.sample_n ≤ s.index_in_epoch + batch_size
  · simp only [DataLoader.next_batch, DataLoader.read_into_memory, hev, if_pos hcross,
      Bool.false_eq_true, if_false] at hb
    set p0 := (if s.epochs_completed = 0 ∧ s.index_in_epoch = 0 ∧ shuffle = true
      then shuf s.perm else s.perm) with hp0def
    set p1 := (if shuffle = true then shuf p0 else p0) with hp1def
    split at hb
    next h1 =>
      cases hxs : s.xs with
      | nil =>
        rw [hxs] at hb
        simp at hb
      | cons x xt =>
        rw [hxs] at h1
        simp only [List.map_cons, List.headD_cons, fancyIndex_length, pySlice_length,
          hp0len] at h1
        omega
    next h1 =>
      split at hb
      next h2 =>
        simp only [List.mem_map] at hb
        obtain ⟨x, hx, rfl⟩ := hb
        rw [fancyIndex_length, pySlice_length, hp0len]
        cases hxs : s.xs with
        | nil =>
          rw [hxs] at h1
          simp at h1
        | cons x0 xt =>
          rw [hxs] at h2
          simp only [List.map_cons, List.headD_cons, fancyIndex_length, pySlice_length,
            hp1len] at h2
          omega
      next h2 =>
        simp only [multi_concatenate, zipWith_append_map, List.mem_map] at hb
        obtain ⟨x, hx, rfl⟩ := hb
        rw [List.length_append, fancyIndex_length, fancyIndex_length, pySlice_length,
          pySlice_length, hp0len, hp1len]
        omega
  · simp only [DataLoader.next_batch, DataLoader.read_into_memory, hev, if_neg hcross,
      Bool.false_eq_true, if_false, List.mem_map] at hb
    obtain ⟨x, hx, rfl⟩ := hb
    rw [fancyIndex_length, pySlice_length, hp0len]
    omega

theorem C1_witness :
    (∀ l : List ℕ, (id l).length = l.length) ∧
    (DataLoader.init [[10, 20, 30]] [0, 0, 0] false : DataLoader ℕ ℕ).for_eval = false ∧
    (DataLoader.init [[10, 20, 30]] [0, 0, 0] false : DataLoader ℕ ℕ).perm.length
      = (DataLoader.init [[10, 20, 30]] [0, 0, 0] false : DataLoader ℕ ℕ).sample_n ∧
    (DataLoader.init [[10, 20, 30]] [0, 0, 0] false : DataLoader ℕ ℕ).index_in_epoch
      < (DataLoader.init [[10, 20, 30]] [0, 0, 0] false : DataLoader ℕ ℕ).sample_n ∧
    1 ≤ 2 ∧ 2 ≤ (DataLoader.init [[10, 20, 30]] [0, 0, 0] false : DataLoader ℕ ℕ).sample_n ∧
    (∀ b ∈ (DataLoader.next_batch id (DataLoader.init [[10, 20, 30]] [0, 0, 0] false) 2
        false).batch_x, b.length = 2) :=
  ⟨fun _ => rfl, rfl, by decide, by decide, by decide, by decide,
   C1_batch_first_dim id (fun _ => rfl) (DataLoader.init [[10, 20, 30]] [0, 0, 0] false) rfl
     (by decide) (by decide) 2 (by decide) (by decide) false⟩

/-- Claim C7: with `for_eval = True` every `next_batch` call returns `None`
as the label component; the call that reaches the end of the data returns
only the remaining samples of the epoch (at most `batch_size`, no wraparound)
and resets `_index_in_epoch` to 0 (incrementing `epochs_completed`), and a
call warns exactly when `epochs_completed ≥ 1` already held. -/
theorem C7_eval_mode {α β : Type} [Inhabited α] [Inhabited β]
    (shuf : List ℕ → List ℕ) (hshuf : ∀ l, (shuf l).length = l.length)
    (s : DataLoader α β) (hev : s.for_eval = true)
    (hperm : s.perm.length = s.sample_n) (hidx : s.index_in_epoch < s.sample_n)
    (batch_size : ℕ) (shuffle : Bool) :
    ((DataLoader.next_batch shuf s batch_size shuffle).batch_y = none) ∧
    ((DataLoader.next_batch shuf s batch_size shuffle).warned = true ↔
      1 ≤ s.epochs_completed) ∧
    (s.sample_n ≤ s.index_in_epoch + batch_size →
      (DataLoader.next_batch shuf s batch_size shuffle).state.index_in_epoch = 0 ∧
      (DataLoader.next_batch shuf s batch_size shuffle).state.epochs_completed
        = s.epochs_completed + 1 ∧
      s.sample_n - s.index_in_epoch ≤ batch_size ∧
      (∀ b ∈ (DataLoader.next_batch shuf s batch_size shuffle).batch_x,
        b.length = s.sample_n - s.index_in_epoch)) := by
  have hp0len : (if s.epochs_completed = 0 ∧ s.index_in_epoch = 0 ∧ shuffle = true
      then shuf s.perm else s.perm).length = s.sample_n := by
    split
    · rw [hshuf]
      exact hperm
    · exact hperm
  by_cases hcross : s.sample_n ≤ s.index_in_epoch + batch_size
  · refine ⟨?_, ?_, ?_⟩
    · simp [DataLoader.next_batch, DataLoader.read_into_memory, hev, if_pos hcross]
    · simp [DataLoader.next_batch, hev, if_pos hcross]
    · intro _
      refine ⟨?_, ?_, by omega, ?_⟩
      · simp [DataLoader.next_batch, hev, if_pos hcross]
      · simp [DataLoader.next_batch, hev, if_pos hcross]
      · intro b hb
        simp only [DataLoader.next_batch, DataLoader.read_into_memory, hev, if_pos hcross,
          if_true, List.mem_map] at hb
        obtain ⟨x, hx, rfl⟩ := hb
        rw [fancyIndex_length, pySlice_length, hp0len]
        omega
  · refine ⟨?_, ?_, fun hc => absurd hc hcross⟩
    · simp [DataLoader.next_batch, DataLoader.read_into_memory, hev, if_neg hcross]
    · simp [DataLoader.next_batch, hev, if_neg hcross]

theorem C7_witness :
    (∀ l : List ℕ, (id l).length = l.length) ∧
    (DataLoader.init [[10, 20, 30]] ([] : List ℕ) true : DataLoader ℕ ℕ).for_eval = true ∧
    (DataLoader.init [[10, 20, 30]] ([] : List ℕ) true : DataLoader ℕ ℕ).perm.length = (DataLoader.init [[10, 20, 30]] ([] : List ℕ) true : DataLoader ℕ ℕ).sample_n ∧
    (DataLoader.init [[10, 20, 30]] ([] : List ℕ) true : DataLoader ℕ ℕ).index_in_epoch < (DataLoader.init [[10, 20, 30]] ([] : List ℕ) true : DataLoader ℕ ℕ).sample_n ∧
    (((DataLoader.next_batch id (DataLoader.init [[10, 20, 30]] ([] : List ℕ) true : DataLoader ℕ ℕ) 5 false).batch_y = none) ∧
     ((DataLoader.next_batch id (DataLoader.init [[10, 20, 30]] ([] : List ℕ) true : DataLoader ℕ ℕ) 5 false).warned = true ↔ 1 ≤ (DataLoader.init [[10, 20, 30]] ([] : List ℕ) true : DataLoader ℕ ℕ).epochs_completed) ∧
     ((DataLoader.init [[10, 20, 30]] ([] : List ℕ) true : DataLoader ℕ ℕ).sample_n ≤ (DataLoader.init [[10, 20, 30]] ([] : List ℕ) true : DataLoader ℕ ℕ).index_in_epoch + 5 →
       (DataLoader.next_batch id (DataLoader.init [[10, 20, 30]] ([] : List ℕ) true : DataLoader ℕ ℕ) 5 false).state.index_in_epoch = 0 ∧
       (DataLoader.next_batch id (DataLoader.init [[10, 20, 30]] ([] : List ℕ) true : DataLoader ℕ ℕ) 5 false).state.epochs_completed = (DataLoader.init [[10, 20, 30]] ([] : List ℕ) true : DataLoader ℕ ℕ).epochs_completed + 1 ∧
       (DataLoader.init [[10, 20, 30]] ([] : List ℕ) true : DataLoader ℕ ℕ).sample_n - (DataLoader.init [[10, 20, 30]] ([] : List ℕ) true : DataLoader ℕ ℕ).index_in_epoch ≤ 5 ∧
       (∀ b ∈ (DataLoader.next_batch id (DataLoader.init [[10, 20, 30]] ([] : List ℕ) true : DataLoader ℕ ℕ) 5 false).batch_x, b.length = (DataLoader.init [[10, 20, 30]] ([] : List ℕ) true : DataLoader ℕ ℕ).sample_n - (DataLoader.init [[10, 20, 30]] ([] : List ℕ) true : DataLoader ℕ ℕ).index_in_epoch))) :=
  ⟨fun _ => rfl, rfl, by decide, by decide,
   C7_eval_mode id (fun _ => rfl) (DataLoader.init [[10, 20, 30]] ([] : List ℕ) true) rfl
     (by decide) (by decide) 5 false⟩

theorem drop_range (a b : ℕ) : (List.range b).drop a = List.range' a (b - a) := by
  by_cases h : a ≤ b
  · conv_lhs => rw [show b = a + (b - a) from by omega, List.range_add]
    rw [← List.range'_eq_map_range]
    rw [show ((List.range a ++ List.range' a (b - a)).drop a
        = (List.range a ++ List.range' a (b - a)).drop (List.range a).length)
      from by rw [List.length_range]]
    rw [List.drop_left]
  · rw [List.drop_eq_nil_of_le (by simpa using by omega), show b - a = 0 from by omega]
    simp

theorem pySlice_range (n a b : ℕ) (hb : b ≤ n) :
    pySlice (List.range n) a b = List.range' a (b - a) := by
  unfold pySlice
  rw [List.take_range, min_eq_left hb, drop_range]

theorem fancyIndex_range' {α : Type} [Inhabited α] (x : List α) (start bs : ℕ)
    (h : start + bs ≤ x.length) :
    fancyIndex x (List.range' start bs) = (x.drop start).take bs := by
  induction bs generalizing start with
  | zero => simp [fancyIndex]
  | succ k ih =>
    rw [List.range'_succ]
    simp only [fancyIndex, List.map_cons]
    have hlt : start < x.length := by omega
    rw [List.drop_eq_getElem_cons hlt, List.take_succ_cons]
    congr 1
    · exact getD_of_lt x start default hlt
    · have := ih (start + 1) (by omega)
      simpa [fancyIndex] using this

theorem cyclic_slice {α : Type} (x : List α) (n start bs : ℕ)
    (hx : x.length = n) (hstart : start < n) :
    ((x ++ x).drop start).take bs
      = (x.drop start).take bs ++ x.take (bs - (n - start)) := by
  rw [List.drop_append_eq_append_drop]
  rw [show start - x.length = 0 from by omega]
  simp only [List.drop_zero]
  rw [List.take_append_eq_append_take]
  congr 2
  rw [List.length_drop, hx]

/-- Claim C4: with `for_eval = False` the permutation is reshuffled only at
epoch boundaries, never mid-epoch: with `shuffle = True` it is shuffled once
before the first batch of the first epoch and again on each epoch-completing
call (`epochs_completed` is incremented exactly on those calls); with
`shuffle = False` the permutation never changes and successive batches
traverse the samples in original index order, cyclically. -/
theorem C4_shuffle_epochs {α β : Type} [Inhabited α] [Inhabited β]
    (shuf : List ℕ → List ℕ) (s : DataLoader α β)
    (batch_size : ℕ) (hev : s.for_eval = false)
    (hperm : s.perm.length = s.sample_n) (hidx : s.index_in_epoch < s.sample_n)
    (hb1 : 1 ≤ batch_size) (hb2 : batch_size ≤ s.sample_n) :
    ((DataLoader.next_batch shuf s batch_size false).state.perm = s.perm) ∧
    (∀ shuffle : Bool,
      (DataLoader.next_batch shuf s batch_size shuffle).state.epochs_completed
        = s.epochs_completed
          + (if s.sample_n ≤ s.index_in_epoch + batch_size then 1 else 0)) ∧
    (¬ (s.epochs_completed = 0 ∧ s.index_in_epoch = 0) →
      ¬ s.sample_n ≤ s.index_in_epoch + batch_size →
      (DataLoader.next_batch shuf s batch_size true).state.perm = s.perm) ∧
    (s.epochs_completed = 0 → s.index_in_epoch = 0 →
      ¬ s.sample_n ≤ s.index_in_epoch + batch_size →
      (DataLoader.next_batch shuf s batch_size true).state.perm = shuf s.perm) ∧
    (s.sample_n ≤ s.index_in_epoch + batch_size →
      (DataLoader.next_batch shuf s batch_size true).state.perm
        = shuf (if s.epochs_completed = 0 ∧ s.index_in_epoch = 0
                then shuf s.perm else s.perm)) ∧
    (s.perm = List.range s.sample_n →
      (∀ x ∈ s.xs, x.length = s.sample_n) →
      (DataLoader.next_batch shuf s batch_size false).batch_x
        = s.xs.map (fun x =>
            ((x ++ x).drop s.index_in_epoch).take batch_size)) := by
  refine ⟨?_, ?_, ?_, ?_, ?_, ?_⟩
  · by_cases hcross : s.sample_n ≤ s.index_in_epoch + batch_size
    · simp [DataLoader.next_batch, hev, if_pos hcross]
    · simp [DataLoader.next_batch, hev, if_neg hcross]
  · intro shuffle
    by_cases hcross : s.sample_n ≤ s.index_in_epoch + batch_size
    · simp [DataLoader.next_batch, hev, if_pos hcross]
    · simp [DataLoader.next_batch, hev, if_neg hcross]
  · intro hnf hncross
    simp only [DataLoader.next_batch, hev, if_neg hncross, Bool.false_eq_true, if_false]
    rw [if_neg]
    rintro ⟨h1, h2, _⟩
    exact hnf ⟨h1, h2⟩
  · intro he hi0 hncross
    simp only [DataLoader.next_batch, hev, if_neg hncross, Bool.false_eq_true, if_false]
    rw [if_pos ⟨he, hi0, trivial⟩]
  · intro hcross
    simp only [DataLoader.next_batch, hev, if_pos hcross, Bool.false_eq_true, if_false,
      if_true]
    simp
  · intro hprange hxslen
    by_cases hcross : s.sample_n ≤ s.index_in_epoch + batch_size
    · simp only [DataLoader.next_batch, DataLoader.read_into_memory, hev, if_pos hcross,
        Bool.false_eq_true, and_false, if_false] at *
      rw [hprange]
      split
      next h1 =>
        cases hxs : s.xs with
        | nil => simp [hxs]
        | cons x0 xt =>
          rw [hxs] at h1
          simp only [List.map_cons, List.headD_cons, fancyIndex_length, pySlice_length,
            List.length_range] at h1
          omega
      next h1 =>
        split
        next h2 =>
          cases hxs : s.xs with
          | nil => simp
          | cons x0 xt =>
            have hnz : batch_size - (s.sample_n - s.index_in_epoch) = 0 := by
              rw [hxs] at h2
              simp only [List.map_cons, List.headD_cons, fancyIndex_length, pySlice_length,
                List.length_range] at h2
              omega
            rw [hxs] at hxslen
            apply List.map_congr_left
            intro x hx
            rw [pySlice_range s.sample_n s.index_in_epoch s.sample_n (le_refl _)]
            rw [fancyIndex_range' x s.index_in_epoch (s.sample_n - s.index_in_epoch)
              (by rw [hxslen x hx]; omega)]
            rw [cyclic_slice x s.sample_n s.index_in_epoch batch_size (hxslen x hx) hidx]
            rw [hnz, show batch_size = s.sample_n - s.index_in_epoch from by omega]
            simp
        next h2 =>
          simp only [multi_concatenate, zipWith_append_map]
          apply List.map_congr_left
          intro x hx
          rw [pySlice_range s.sample_n s.index_in_epoch s.sample_n (le_refl _)]
          rw [pySlice_range s.sample_n 0 (batch_size - (s.sample_n - s.index_in_epoch))
            (by omega)]
          rw [fancyIndex_range' x s.index_in_epoch (s.sample_n - s.index_in_epoch)
            (by rw [hxslen x hx]; omega)]
          rw [fancyIndex_range' x 0 (batch_size - (s.sample_n - s.index_in_epoch) - 0)
            (by rw [hxslen x hx]; omega)]
          rw [cyclic_slice x s.sample_n s.index_in_epoch batch_size (hxslen x hx) hidx]
          have hfull : (x.drop s.index_in_epoch).length = s.sample_n - s.index_in_epoch := by
            rw [List.length_drop, hxslen x hx]
          simp only [List.drop_zero, Nat.sub_zero]
          rw [show (x.drop s.index_in_epoch).take (s.sample_n - s.index_in_epoch)
              = x.drop s.index_in_epoch from by rw [← hfull, List.take_length]]
          have htk : (x.drop s.index_in_epoch).length ≤ batch_size := by
            rw [hfull]
            omega
          rw [List.take_of_length_le htk]
    · simp only [DataLoader.next_batch, DataLoader.read_into_memory, hev, if_neg hcross,
        Bool.false_eq_true, and_false, if_false]
      rw [hprange]
      apply List.map_congr_left
      intro x hx
      rw [pySlice_range s.sample_n s.index_in_epoch (s.index_in_epoch + batch_size)
        (by omega)]
      rw [Nat.add_sub_cancel_left]
      rw [fancyIndex_range' x s.index_in_epoch batch_size (by rw [hxslen x hx]; omega)]
      rw [cyclic_slice x s.sample_n s.index_in_epoch batch_size (hxslen x hx) hidx]
      rw [show batch_size - (s.sample_n - s.index_in_epoch) = 0 from by omega]
      simp

theorem C4_witness :
    (DataLoader.init [[10, 20, 30]] [0, 0, 0] false : DataLoader ℕ ℕ).for_eval = false ∧
    (DataLoader.init [[10, 20, 30]] [0, 0, 0] false : DataLoader ℕ ℕ).perm.length = (DataLoader.init [[10, 20, 30]] [0, 0, 0] false : DataLoader ℕ ℕ).sample_n ∧
    (DataLoader.init [[10, 20, 30]] [0, 0, 0] false : DataLoader ℕ ℕ).index_in_epoch < (DataLoader.init [[10, 20, 30]] [0, 0, 0] false : DataLoader ℕ ℕ).sample_n ∧
    1 ≤ 2 ∧ 2 ≤ (DataLoader.init [[10, 20, 30]] [0, 0, 0] false : DataLoader ℕ ℕ).sample_n ∧
    (((DataLoader.next_batch id (DataLoader.init [[10, 20, 30]] [0, 0, 0] false : DataLoader ℕ ℕ) 2 false).state.perm = (DataLoader.init [[10, 20, 30]] [0, 0, 0] false : DataLoader ℕ ℕ).perm) ∧
     (∀ shuffle : Bool,
       (DataLoader.next_batch id (DataLoader.init [[10, 20, 30]] [0, 0, 0] false : DataLoader ℕ ℕ) 2 shuffle).state.epochs_completed
         = (DataLoader.init [[10, 20, 30]] [0, 0, 0] false : DataLoader ℕ ℕ).epochs_completed
           + (if (DataLoader.init [[10, 20, 30]] [0, 0, 0] false : DataLoader ℕ ℕ).sample_n ≤ (DataLoader.init [[10, 20, 30]] [0, 0, 0] false : DataLoader ℕ ℕ).index_in_epoch + 2 then 1 else 0)) ∧
     (¬ ((DataLoader.init [[10, 20, 30]] [0, 0, 0] false : DataLoader ℕ ℕ).epochs_completed = 0 ∧ (DataLoader.init [[10, 20, 30]] [0, 0, 0] false : DataLoader ℕ ℕ).index_in_epoch = 0) →
       ¬ (DataLoader.init [[10, 20, 30]] [0, 0, 0] false : DataLoader ℕ ℕ).sample_n ≤ (DataLoader.init [[10, 20, 30]] [0, 0, 0] false : DataLoader ℕ ℕ).index_in_epoch + 2 →
       (DataLoader.next_batch id (DataLoader.init [[10, 20, 30]] [0, 0, 0] false : DataLoader ℕ ℕ) 2 true).state.perm = (DataLoader.init [[10, 20, 30]] [0, 0, 0] false : DataLoader ℕ ℕ).perm) ∧
     ((DataLoader.init [[10, 20, 30]] [0, 0, 0] false : DataLoader ℕ ℕ).epochs_completed = 0 → (DataLoader.init [[10, 20, 30]] [0, 0, 0] false : DataLoader ℕ ℕ).index_in_epoch = 0 →
       ¬ (DataLoader.init [[10, 20, 30]] [0, 0, 0] false : DataLoader ℕ ℕ).sample_n ≤ (DataLoader.init [[10, 20, 30]] [0, 0, 0] false : DataLoader ℕ ℕ).index_in_epoch + 2 →
       (DataLoader.next_batch id (DataLoader.init [[10, 20, 30]] [0, 0, 0] false : DataLoader ℕ ℕ) 2 true).state.perm = id (DataLoader.init [[10, 20, 30]] [0, 0, 0] false : DataLoader ℕ ℕ).perm) ∧
     ((DataLoader.init [[10, 20, 30]] [0, 0, 0] false : DataLoader ℕ ℕ).sample_n ≤ (DataLoader.init [[10, 20, 30]] [0, 0, 0] false : DataLoader ℕ ℕ).index_in_epoch + 2 →
       (DataLoader.next_batch id (DataLoader.init [[10, 20, 30]] [0, 0, 0] false : DataLoader ℕ ℕ) 2 true).state.perm
         = id (if (DataLoader.init [[10, 20, 30]] [0, 0, 0] false : DataLoader ℕ ℕ).epochs_completed = 0 ∧ (DataLoader.init [[10, 20, 30]] [0, 0, 0] false : DataLoader ℕ ℕ).index_in_epoch = 0
               then id (DataLoader.init [[10, 20, 30]] [0, 0, 0] false : DataLoader ℕ ℕ).perm else (DataLoader.init [[10, 20, 30]] [0, 0, 0] false : DataLoader ℕ ℕ).perm)) ∧
     ((DataLoader.init [[10, 20, 30]] [0, 0, 0] false : DataLoader ℕ ℕ).perm = List.range (DataLoader.init [[10, 20, 30]] [0, 0, 0] false : DataLoader ℕ ℕ).sample_n →
       (∀ x ∈ (DataLoader.init [[10, 20, 30]] [0, 0, 0] false : DataLoader ℕ ℕ).xs, x.length = (DataLoader.init [[10, 20, 30]] [0, 0, 0] false : DataLoader ℕ ℕ).sample_n) →
       (DataLoader.next_batch id (DataLoader.init [[10, 20, 30]] [0, 0, 0] false : DataLoader ℕ ℕ) 2 false).batch_x
         = (DataLoader.init [[10, 20, 30]] [0, 0, 0] false : DataLoader ℕ ℕ).xs.map (fun x =>
             ((x ++ x).drop (DataLoader.init [[10, 20, 30]] [0, 0, 0] false : DataLoader ℕ ℕ).index_in_epoch).take 2))) :=
  ⟨rfl, by decide, by decide, by decide, by decide,
   C4_shuffle_epochs id (DataLoader.init [[10, 20, 30]] [0, 0, 0] false : DataLoader ℕ ℕ) 2 rfl (by decide) (by decide) (by decide) (by decide)⟩

end DataOp
